import Mathlib

/-!
Verification of the `linear-construction` repository against its specification.

The development shallowly embeds the Python sources:
* `linearconstruction/codevector.py`   — block-structured code vectors,
* `linearconstruction/code_description.py` — p-support, unit vectors, label generation,
* `linearconstruction/access_structure.py` — access structures, duality,
* `linearconstruction/search_algorithm.py` — the validator and pieces of the search,
* `linear-construction.py` — the final report selection of the main program.

Finite-field arithmetic (a black-box algebra provider in the original, supplied
by Sage) is modelled by an arbitrary decidable field `F` together with the list
`elems` of its elements, mirroring `base_ring.list()`.  Machine behaviour of
Python that matters to the claims (tuple truthiness, negative list indexing,
`random.sample` selection order, `itertools.product` enumeration order) is
embedded explicitly.
-/

namespace LinearConstruction

instance exceptDecidableEq {ε α : Type} [DecidableEq ε] [DecidableEq α] :
    DecidableEq (Except ε α) := fun x y =>
  match x, y with
  | .ok a, .ok b =>
    if h : a = b then .isTrue (by rw [h])
    else .isFalse (fun hh => h (Except.ok.inj hh))
  | .error a, .error b =>
    if h : a = b then .isTrue (by rw [h])
    else .isFalse (fun hh => h (Except.error.inj hh))
  | .ok _, .error _ => .isFalse (fun hh => Except.noConfusion hh)
  | .error _, .ok _ => .isFalse (fun hh => Except.noConfusion hh)

/-! ## Python list semantics helpers -/

/-- `itertools.product(elems, repeat=n)`: all `n`-tuples over `elems`, first
coordinate varying slowest, exactly as `itertools.product` enumerates. -/
def pyProduct {α : Type} (elems : List α) : Nat → List (List α)
  | 0 => [[]]
  | n + 1 => elems.flatMap (fun e => (pyProduct elems n).map (fun t => e :: t))

/-- `itertools.product(*parts)`: the cartesian product of a list of lists,
first factor varying slowest. -/
def cartProd {α : Type} : List (List α) → List (List α)
  | [] => [[]]
  | l :: ls => l.flatMap (fun x => (cartProd ls).map (fun t => x :: t))

/-- The effective index of a Python sequence access: a negative index wraps
around the end of the sequence. -/
def pyIndex (i : Int) (n : Nat) : Int :=
  if i < 0 then i + n else i

/-- Python sequence read `s[i]` with negative-index wrap-around; raises
`IndexError` when the effective index is out of range. -/
def pyGetIndex {α : Type} (l : List α) (i : Int) : Except String α :=
  if h : 0 ≤ pyIndex i l.length ∧ pyIndex i l.length < l.length then
    .ok (l.get ⟨(pyIndex i l.length).toNat, by
      rcases h with ⟨h1, h2⟩; omega⟩)
  else .error "IndexError: index out of range"

/-- Python list item assignment `l[i] = a` with negative-index wrap-around;
raises `IndexError` when the effective index is out of range. -/
def pyListSet {α : Type} (l : List α) (i : Int) (a : α) : Except String (List α) :=
  if 0 ≤ pyIndex i l.length ∧ pyIndex i l.length < l.length then
    .ok (l.set (pyIndex i l.length).toNat a)
  else .error "IndexError: list assignment index out of range"

/-- `random.sample(l, k)` abstracted over the randomness: the sampler picks a
list `sel` of distinct in-range positions (`SampleSelection`), and the sample
is the elements of `l` read at those positions, in selection order. -/
def pySample {α : Type} (l : List α) (sel : List Nat) : List α :=
  sel.filterMap (fun i => l[i]?)

/-- The randomness contract of `random.sample(l, k)`: `k` distinct positions
into `l`, in an arbitrary (selection) order. -/
def SampleSelection {α : Type} (l : List α) (sel : List Nat) (k : Nat) : Prop :=
  sel.Nodup ∧ (∀ i ∈ sel, i < l.length) ∧ sel.length = k

/-- Truthiness of a Python 2-tuple: a non-empty tuple is always truthy,
whatever its components. -/
def pyTruthyPair {α β : Type} (_ : α × β) : Bool := true

/-! ## codevector.py -/

/-- `linearconstruction.codevector.Vector`: a finite-field vector `c` together
with the per-participant block sizes `parameters` (the tuple `pi`). -/
structure CodeVector (F : Type) where
  c : List F
  parameters : List Nat
deriving DecidableEq

/-- The block decomposition performed by `Vector.__iter__`: successive slices
of `c` of the sizes listed in `parameters`. -/
def blocksOf {F : Type} : List F → List Nat → List (List F)
  | _, [] => []
  | c, s :: rest => c.take s :: blocksOf (c.drop s) rest

/-- `Vector.__hash__` evaluates `hash(self.c + self.parameters)`.  The Sage
sum of a vector and a tuple coerces the tuple elementwise when the lengths
agree and raises a `TypeError` otherwise; we return the would-be hash input. -/
def vectorHash {F : Type} [Field F] (v : CodeVector F) : Except String (List F) :=
  if v.c.length = v.parameters.length then
    .ok (List.zipWith (fun x p => x + (p : F)) v.c v.parameters)
  else .error "TypeError: unsupported operand parent for plus"

/-! ## code_description.py -/

/-- `p_support(v)`: the 1-based indices of the blocks of `v` that are not
all-zero (`{i for i, cw in enumerate(v, start=1) if any(cw)}`). -/
def p_support {F : Type} [DecidableEq F] [Zero F] (v : CodeVector F) : Finset Nat :=
  ((Finset.range v.parameters.length).filter
    (fun i => ((blocksOf v.c v.parameters).getD i []).any (· ≠ 0))).image (· + 1)

/-- `jth_unit_vector(j, dim, base_ring)`: guards `j > dim` and `j == 0`, then
performs the Python list assignment `e[j - 1] = 1` (negative `j - 1` wraps). -/
def jth_unit_vector (F : Type) [Zero F] [One F] (j : Int) (dim : Nat) :
    Except String (List F) :=
  if (dim : Int) < j then .error "ValueError: j is bigger than dim"
  else if j = 0 then .error "ValueError: cannot create 0th unit vector"
  else pyListSet (List.replicate dim (0 : F)) (j - 1) (1 : F)

/-- The value `jth_unit_vector` returns on an in-range positive index:
`dim` zeroes with a `1` written at 0-based position `j - 1`. -/
def unitVec (F : Type) [Zero F] [One F] (j dim : Nat) : List F :=
  (List.replicate dim (0 : F)).set (j - 1) (1 : F)

/-- `generate_label(participants, pi, x_i, base_ring, lin_span)` with
`participants = {1..n}`: per participant either the full `q^pi[p-1]` block
space (participants in `x_i`) or the single zero block, combined by
`itertools.product` and flattened by `chain.from_iterable`; the all-zero
vector and vectors in the supplied span (`memSpan`) are skipped. -/
def generate_label {F : Type} [DecidableEq F] [Zero F]
    (n : Nat) (pi : List Nat) (x_i : Finset Nat) (elems : List F)
    (memSpan : List F → Bool) : List (CodeVector F) :=
  let parts : List (List (List F)) :=
    (List.range' 1 n).map (fun p =>
      if p ∈ x_i then pyProduct elems (pi.getD (p - 1) 0)
      else [List.replicate (pi.getD (p - 1) 0) (0 : F)])
  (cartProd parts).filterMap (fun choice =>
    let vec := choice.flatten
    if vec ≠ List.replicate pi.sum (0 : F) ∧ ¬ memSpan vec then
      some ⟨vec, pi⟩
    else none)

/-! ## access_structure.py -/

/-- One round of the `while temp:` loop of `_calculate_group(max, groups)`:
commit every set of currently maximal cardinality, then drop the committed
sets and all of their subsets from the pool.  The loop runs at most
`temp.card` rounds (each round removes at least one set), so the fuelled
recursion below with fuel `temp.card + 1` computes the loop exactly. -/
def calculateGroupFuel : Nat → Finset (Finset Nat) → Finset (Finset Nat)
  | 0, _ => ∅
  | fuel + 1, temp =>
    if temp = ∅ then ∅
    else
      let mx := temp.sup Finset.card
      let s := temp.filter (fun i => i.card = mx)
      s ∪ calculateGroupFuel fuel (temp.filter (fun i => ¬ ∃ j ∈ s, i ⊆ j))

/-- `_calculate_group(max, groups)`: the committed sets of the iterative
maximal-cardinality sweep.  The Python function returns them as a freshly
keyed dict; only the set of values is deterministic, which is what we keep. -/
def calculate_group (temp : Finset (Finset Nat)) : Finset (Finset Nat) :=
  calculateGroupFuel (temp.card + 1) temp

/-- The participant set `set(range(1, n + 1))`. -/
def participantsOf (n : Nat) : Finset Nat := Finset.Icc 1 n

/-- `_calculate_sets(participants, gamma_min)`: split the power set into the
qualified sets (containing some minimal qualified set) and the forbidden
sets (the rest). -/
def calculate_sets (P : Finset Nat) (gamma_min : List (Finset Nat)) :
    Finset (Finset Nat) × Finset (Finset Nat) :=
  (P.powerset.filter (fun s => ∃ g ∈ gamma_min, g ⊆ s),
   P.powerset.filter (fun s => ¬ ∃ g ∈ gamma_min, g ⊆ s))

/-- The state an `AccessStructure` instance carries after `__init__`:
`participants`, the decoded `gamma_min` (a dict keyed `1..r`, kept here as
the list of its values in key order), and the derived `gamma`, `delta`,
`delta_max`. -/
structure AccessStructure where
  participants : Finset Nat
  gamma_min : List (Finset Nat)
  gamma : Finset (Finset Nat)
  delta : Finset (Finset Nat)
  delta_max : Finset (Finset Nat)
deriving DecidableEq

/-- The body of `AccessStructure.__init__` after the participant names have
been decoded to integer ids. -/
def mkACcore (n : Nat) (gamma_min : List (Finset Nat)) : AccessStructure :=
  let P := participantsOf n
  let gd := calculate_sets P gamma_min
  ⟨P, gamma_min, gd.1, gd.2, calculate_group gd.2⟩

/-- `string.ascii_lowercase`. -/
def asciiLowercase : List Char :=
  ['a', 'b', 'c', 'd', 'e', 'f', 'g', 'h', 'i', 'j', 'k', 'l', 'm',
   'n', 'o', 'p', 'q', 'r', 's', 't', 'u', 'v', 'w', 'x', 'y', 'z']

/-- `ascii_lowercase.index(ch) + 1`: decode one participant name; raises
`ValueError` for a character outside the 26 lowercase letters. -/
def decodeChar (ch : Char) : Except String Nat :=
  match asciiLowercase.findIdx? (· = ch) with
  | some i => .ok (i + 1)
  | none => .error "ValueError: substring not found"

/-- The value inside an `Except.ok`, with a default for the error case. -/
def okD {ε α : Type} (e : Except ε α) (d : α) : α :=
  match e with
  | .ok a => a
  | .error _ => d

/-- Decode a set of participant names, `{ascii_lowercase.index(i) + 1 for i in v}`:
the comprehension raises as soon as one name is not a lowercase letter,
otherwise it returns the set of decoded ids. -/
def decodeSet (v : Finset Char) : Except String (Finset Nat) :=
  if ∀ ch ∈ v, (decodeChar ch).isOk = true then
    .ok (v.image (fun ch => okD (decodeChar ch) 0))
  else .error "ValueError: substring not found"

/-- `AccessStructure.__init__(n, gamma_min)`: decode every participant name of
every minimal qualified set, then build the derived sets. -/
def mkAccessStructure (n : Nat) (gammaMinNames : List (Finset Char)) :
    Except String AccessStructure := do
  let gamma_min ← gammaMinNames.mapM decodeSet
  return mkACcore n gamma_min

/-- Sage-style deterministic enumeration of `powerset(l)` as a list. -/
def powerList (l : List Nat) : List (Finset Nat) :=
  l.foldr (fun a acc => acc ++ acc.map (insert a)) [∅]

/-- `_calculate_dual_gamma_min`: every subset `x` of the participants whose
complement is a value of `delta_max`, keyed in enumeration order. -/
def dualGammaMinList (ac : AccessStructure) (n : Nat) : List (Finset Nat) :=
  (powerList (List.range' 1 n)).filter (fun x => ac.participants \ x ∈ ac.delta_max)

/-- `ascii_lowercase[i - 1]`: re-encode one participant id; raises
`IndexError` above `z`. -/
def encodeId (i : Nat) : Except String Char :=
  pyGetIndex asciiLowercase ((i : Int) - 1)

/-- Re-encode a set of participant ids, `{ascii_lowercase[i - 1] for i in v}`:
the comprehension raises as soon as one id indexes past the alphabet,
otherwise it returns the set of letters. -/
def encodeSet (v : Finset Nat) : Except String (Finset Char) :=
  if ∀ i ∈ v, (encodeId i).isOk = true then
    .ok (v.image (fun i => okD (encodeId i) 'a'))
  else .error "IndexError: string index out of range"

/-- `AccessStructure.dual()`: compute the dual minimal qualified sets, encode
their ids back into letters and construct a fresh `AccessStructure` on
`len(self.participants)` participants. -/
def dual (ac : AccessStructure) : Except String AccessStructure := do
  let names ← (dualGammaMinList ac ac.participants.card).mapM encodeSet
  mkAccessStructure ac.participants.card names

/-- `AccessStructure.__eq__`: equal participant sets, and `gamma_min` and
`delta_max` with the same number of entries and mutually contained values
(set-of-sets comparison, independent of the dict key order). -/
def acEq (a b : AccessStructure) : Prop :=
  a.participants = b.participants ∧
  a.gamma_min.length = b.gamma_min.length ∧
  (∀ v ∈ a.gamma_min, v ∈ b.gamma_min) ∧
  (∀ v ∈ b.gamma_min, v ∈ a.gamma_min) ∧
  a.delta_max.card = b.delta_max.card ∧
  (∀ v ∈ a.delta_max, v ∈ b.delta_max) ∧
  (∀ v ∈ b.delta_max, v ∈ a.delta_max)

instance acEqDecidable (a b : AccessStructure) : Decidable (acEq a b) := by
  unfold acEq; infer_instance

/-! ## search_algorithm.py — the Validator -/

/-- The column-index bookkeeping of `create_submatrix`: walk `parameters` with
a running offset `f`, collecting `range(f, f + s)` for participants in `x`. -/
def subColsAux (x : Finset Nat) : List Nat → Nat → Nat → List Nat
  | [], _, _ => []
  | s :: rest, i, f =>
    (if i ∈ x then List.range' f s else []) ++ subColsAux x rest (i + 1) (f + s)

/-- The global column indices selected by `create_submatrix` for the
participant set `x` (`enumerate(self.parameters, start=1)`, offset `f = 0`). -/
def subCols (pi : List Nat) (x : Finset Nat) : List Nat := subColsAux x pi 1 0

/-- `possible_matrix.matrix_from_columns(cols)`: the matrix (list of rows)
restricted to the given column indices. -/
def submatrixRows {F : Type} [Zero F] (M : List (List F)) (cols : List Nat) :
    List (List F) :=
  M.map (fun row => cols.map (fun j => row.getD j 0))

/-- Sage's `linear_combination_of_columns(com)`: the vector whose `i`-th entry
is the dot product of row `i` with the coefficient list `com`. -/
def linCombCols {F : Type} [Mul F] [AddCommMonoid F] (M : List (List F)) (com : List F) :
    List F :=
  M.map (fun row => ((row.zip com).map (fun p => p.1 * p.2)).sum)

/-- The list `unit_vectors = [jth_unit_vector(j + 1, nrows, R) for j in range(k)]`. -/
def unitsList (F : Type) [Zero F] [One F] (k nrows : Nat) : List (List F) :=
  (List.range k).map (fun j => unitVec F (j + 1) nrows)

/-- `matrix(unit_vectors).T`: the matrix whose columns are the unit vectors,
as a list of rows. -/
def unitsMatT (F : Type) [Zero F] [One F] (k nrows : Nat) : List (List F) :=
  (List.range nrows).map (fun i => (unitsList F k nrows).map (fun u => u.getD i 0))

/-- `linear_combinations_of_unit_vectors()`: all column combinations of
`matrix(unit_vectors).T` except the first enumerated one (`res[1:]`, the
all-zero-coefficients combination). -/
def linCombUnits {F : Type} [Zero F] [One F] [Mul F] [AddCommMonoid F]
    (elems : List F) (k nrows : Nat) : List (List F) :=
  ((pyProduct elems k).drop 1).map (fun com => linCombCols (unitsMatT F k nrows) com)

/-- `is_valid_gen_vec_constr(possible_matrix)`: condition V1 over every set in
`gamma` (each unit vector is a column combination of the restricted matrix),
then condition V2 over every set in `delta` (no column combination of the
restricted matrix lies among the nonzero unit-vector combinations); the
returned pair carries the failure message of the first failed check. -/
def is_valid_gen_vec_constr {F : Type} [Field F] [DecidableEq F]
    (elems : List F) (pi : List Nat) (k : Nat) (ac : AccessStructure)
    (M : List (List F)) : Bool × String :=
  if ∀ x ∈ ac.gamma, ∀ u ∈ unitsList F k M.length,
      ∃ com ∈ pyProduct elems (subCols pi x).length,
        linCombCols (submatrixRows M (subCols pi x)) com = u then
    if ∀ x ∈ ac.delta, ∀ com ∈ pyProduct elems (subCols pi x).length,
        linCombCols (submatrixRows M (subCols pi x)) com ∉ linCombUnits elems k M.length then
      (true, "")
    else
      (false, "V2, a linear combination of columns of a forbidden submatrix results in a linear combination of unit vectors")
  else
    (false, "V1, a unit vector cannot be expressed as a linear combination of the columns of a qualified submatrix")

/-! ## search_algorithm.py — the closure/span guard of `_d_plus` -/

/-- The `elif` guard of the closure/span branch of `_d_plus` for a list-shaped
label: `ca and sum(s_a) == max(s_a) * (max(s_a) + 1) // 2`.  Python's `and`
short-circuits, so an empty `ca` yields `False` without evaluating `max`;
with a non-empty `ca` and an empty `s_a`, `max(s_a)` raises (`none`). -/
def spanGuard {α : Type} (ca : List α) (s_a : Finset Nat) : Option Bool :=
  if ca.isEmpty then some false
  else if h : s_a.Nonempty then
    some (decide (s_a.sum id = s_a.max' h * (s_a.max' h + 1) / 2))
  else none

/-! ## linear-construction.py — final report selection -/

/-- The three terminal reports of `__main__`. -/
inductive MainReport
  | success
  | invalidCandidates
  | noSolution
deriving DecidableEq

/-- The tail of `__main__`: with a non-empty `result`, the success report is
written when `if search.is_valid_gen_vec_constr(gen_vec_matrix):` takes the
then-branch (tuple truthiness), otherwise the candidate-vectors-not-valid
message; with an empty `result`, the no-construction message. -/
def mainReport {α : Type} (result : List α) (validatorOut : Bool × String) :
    MainReport :=
  if result.isEmpty = false then
    if pyTruthyPair validatorOut then .success else .invalidCandidates
  else .noSolution

/-! ## Spec-side definitions (used to state refinement claims) -/

/-- Spec-side: the inclusion-maximal elements of a family of sets
("every set it contains is not strictly contained in another member"). -/
def maximalSetsIn (S : Finset (Finset Nat)) : Finset (Finset Nat) :=
  S.filter (fun i => ∀ j ∈ S, i ⊆ j → i = j)

/-- Spec-side: the inclusion-minimal elements of a family of sets. -/
def minimalSetsIn (S : Finset (Finset Nat)) : Finset (Finset Nat) :=
  S.filter (fun i => ∀ j ∈ S, j ⊆ i → i = j)

/-! ## Theorems -/

theorem mem_maximalSetsIn {S : Finset (Finset Nat)} {i : Finset Nat} :
    i ∈ maximalSetsIn S ↔ i ∈ S ∧ ∀ j ∈ S, i ⊆ j → i = j := by
  simp [maximalSetsIn]

theorem mem_minimalSetsIn {S : Finset (Finset Nat)} {i : Finset Nat} :
    i ∈ minimalSetsIn S ↔ i ∈ S ∧ ∀ j ∈ S, j ⊆ i → i = j := by
  simp [minimalSetsIn]

/-- The fuelled loop of `_calculate_group` computes exactly the
inclusion-maximal elements of the pool, given enough fuel. -/
theorem calculateGroupFuel_eq_maximals (fuel : Nat) :
    ∀ temp : Finset (Finset Nat), temp.card ≤ fuel →
      calculateGroupFuel fuel temp = maximalSetsIn temp := by
  induction fuel with
  | zero =>
    intro temp h
    have : temp = ∅ := Finset.card_eq_zero.mp (Nat.le_zero.mp h)
    subst this
    simp [calculateGroupFuel, maximalSetsIn]
  | succ fuel ih =>
    intro temp h
    simp only [calculateGroupFuel]
    by_cases htemp : temp = ∅
    · subst htemp
      simp [maximalSetsIn]
    · rw [if_neg htemp]
      have hne : temp.Nonempty := Finset.nonempty_of_ne_empty htemp
      set mx := temp.sup Finset.card with hmx
      set s := temp.filter (fun i => i.card = mx) with hs
      set rest := temp.filter (fun i => ¬ ∃ j ∈ s, i ⊆ j) with hrest
      obtain ⟨i0, hi0mem, hi0card⟩ := Finset.exists_mem_eq_sup temp hne Finset.card
      have hi0s : i0 ∈ s := by
        rw [hs, Finset.mem_filter]
        exact ⟨hi0mem, hi0card.symm⟩
      have hi0rest : i0 ∉ rest := by
        rw [hrest, Finset.mem_filter]
        rintro ⟨-, hno⟩
        exact hno ⟨i0, hi0s, Finset.Subset.refl i0⟩
      have hss : rest ⊂ temp :=
        Finset.ssubset_iff_of_subset (Finset.filter_subset _ _) |>.mpr
          ⟨i0, hi0mem, hi0rest⟩
      have hcard : rest.card ≤ fuel := by
        have := Finset.card_lt_card hss
        omega
      rw [ih rest hcard]
      have hs_max : ∀ i ∈ s, ∀ j ∈ temp, i ⊆ j → i = j := by
        intro i his j hj hij
        rw [hs, Finset.mem_filter] at his
        refine Finset.eq_of_subset_of_card_le hij ?_
        rw [his.2]
        exact Finset.le_sup hj
      ext i
      simp only [Finset.mem_union, mem_maximalSetsIn]
      constructor
      · rintro (his | ⟨hirest, hmaxr⟩)
        · exact ⟨Finset.mem_of_mem_filter i his, hs_max i his⟩
        · rw [hrest, Finset.mem_filter] at hirest
          obtain ⟨hitemp, hino⟩ := hirest
          refine ⟨hitemp, ?_⟩
          intro j hj hij
          by_cases hjrest : j ∈ rest
          · exact hmaxr j hjrest hij
          · exfalso
            rw [hrest, Finset.mem_filter] at hjrest
            push_neg at hjrest
            obtain ⟨j2, hj2s, hjj2⟩ := hjrest hj
            exact hino ⟨j2, hj2s, Finset.Subset.trans hij hjj2⟩
      · rintro ⟨hitemp, hmax⟩
        by_cases his : i ∈ s
        · exact Or.inl his
        · refine Or.inr ⟨?_, ?_⟩
          · rw [hrest, Finset.mem_filter]
            refine ⟨hitemp, ?_⟩
            rintro ⟨j, hjs, hij⟩
            have := hmax j (Finset.mem_of_mem_filter j hjs) hij
            subst this
            exact his hjs
          · intro j hjrest hij
            exact hmax j (Finset.mem_of_mem_filter j hjrest) hij

/-- `_calculate_group(max, ·)` returns exactly the inclusion-maximal
elements of its input pool. -/
theorem calculate_group_eq_maximals (temp : Finset (Finset Nat)) :
    calculate_group temp = maximalSetsIn temp :=
  calculateGroupFuel_eq_maximals (temp.card + 1) temp (by omega)

/-- C3: for every constructed access structure, `delta_max` holds exactly the
inclusion-maximal forbidden sets (members of `delta` not strictly contained
in another member, and all such members); in particular, for `n = 4` with
minimal qualified sets `{1,2}, {3,4}, {2,3}` it is `{{1,3},{1,4},{2,4}}`. -/
theorem c3_delta_max_is_maximal_forbidden :
    (∀ (n : Nat) (gmin : List (Finset Nat)) (i : Finset Nat),
        i ∈ (mkACcore n gmin).delta_max ↔
          i ∈ (mkACcore n gmin).delta ∧
            ∀ j ∈ (mkACcore n gmin).delta, i ⊆ j → i = j) ∧
      (mkACcore 4 [{1, 2}, {3, 4}, {2, 3}]).delta_max = {{1, 3}, {1, 4}, {2, 4}} := by
  constructor
  · intro n gmin i
    have hdm : (mkACcore n gmin).delta_max = calculate_group (mkACcore n gmin).delta := rfl
    rw [hdm, calculate_group_eq_maximals, mem_maximalSetsIn]
  · decide

/-- C1 (code bug): at a concrete run over `GF(2)` with two participants of
share size 1, single minimal qualified set `{1, 2}`, `k = 1` and a non-empty
result list whose assembled matrix `[[1, 1]]` fails validation (condition V2:
each single participant can reconstruct the secret), `is_valid_gen_vec_constr`
returns `(False, msg)`, yet `__main__` writes the success report, because
`if search.is_valid_gen_vec_constr(...)` tests the truthiness of the returned
2-tuple, which is always truthy; the `The candidate vectors are not valid.`
branch is unreachable. -/
theorem c1_invalid_construction_reported_as_success :
    (is_valid_gen_vec_constr [(0 : ZMod 2), 1] [1, 1] 1 (mkACcore 2 [{1, 2}])
        [[1, 1]]).1 = false ∧
      mainReport [(⟨[1, 1], [1, 1]⟩ : CodeVector (ZMod 2))]
          (is_valid_gen_vec_constr [(0 : ZMod 2), 1] [1, 1] 1
            (mkACcore 2 [{1, 2}]) [[1, 1]]) = MainReport.success ∧
      ∀ (validatorOut : Bool × String),
        mainReport [(⟨[1, 1], [1, 1]⟩ : CodeVector (ZMod 2))] validatorOut =
          MainReport.success :=
  ⟨by decide, by decide, fun _ => by rfl⟩

theorem mem_pyProduct {α : Type} {elems : List α} :
    ∀ {n : Nat} {t : List α},
      t ∈ pyProduct elems n ↔ t.length = n ∧ ∀ a ∈ t, a ∈ elems := by
  intro n
  induction n with
  | zero =>
    intro t
    simp only [pyProduct, List.mem_singleton]
    constructor
    · rintro rfl; simp
    · rintro ⟨hl, -⟩; exact List.eq_nil_of_length_eq_zero hl
  | succ n ih =>
    intro t
    simp only [pyProduct, List.mem_flatMap, List.mem_map]
    constructor
    · rintro ⟨e, he, t2, ht2, rfl⟩
      obtain ⟨hl, hmem⟩ := ih.mp ht2
      refine ⟨by simp [hl], ?_⟩
      intro a ha
      rcases List.mem_cons.mp ha with rfl | ha2
      · exact he
      · exact hmem a ha2
    · rintro ⟨hl, hmem⟩
      match t with
      | a :: t2 =>
        refine ⟨a, hmem a (List.mem_cons_self a t2), t2, ?_, rfl⟩
        refine ih.mpr ⟨by simpa using hl, ?_⟩
        intro b hb
        exact hmem b (List.mem_cons_of_mem a hb)

theorem mem_cartProd {α : Type} :
    ∀ {parts : List (List α)} {ch : List α},
      ch ∈ cartProd parts ↔ List.Forall₂ (fun a l => a ∈ l) ch parts := by
  intro parts
  induction parts with
  | nil =>
    intro ch
    simp only [cartProd, List.mem_singleton]
    constructor
    · rintro rfl; exact List.Forall₂.nil
    · intro h; cases h; rfl
  | cons l ls ih =>
    intro ch
    simp only [cartProd, List.mem_flatMap, List.mem_map]
    constructor
    · rintro ⟨e, he, t2, ht2, rfl⟩
      exact List.Forall₂.cons he (ih.mp ht2)
    · intro h
      cases h with
      | cons hmem hrest => exact ⟨_, hmem, _, ih.mpr hrest, rfl⟩

theorem forall₂_getD {α β : Type} {R : α → β → Prop} :
    ∀ {l1 : List α} {l2 : List β}, List.Forall₂ R l1 l2 →
      ∀ (i : Nat), i < l1.length → ∀ (d1 : α) (d2 : β),
        R (l1.getD i d1) (l2.getD i d2) := by
  intro l1 l2 h
  induction h with
  | nil => intro i hi; simp at hi
  | cons hR hrest ih =>
    intro i hi d1 d2
    match i with
    | 0 => simpa using hR
    | i + 1 =>
      simp only [List.getD_cons_succ]
      exact ih i (by simpa using hi) d1 d2

theorem blocksOf_flatten {F : Type} :
    ∀ {ch : List (List F)} {sizes : List Nat},
      List.Forall₂ (fun blk s => blk.length = s) ch sizes →
        blocksOf ch.flatten sizes = ch := by
  intro ch sizes h
  induction h with
  | nil => rfl
  | cons hlen hrest ih =>
    rename_i blk s ch2 sizes2
    simp only [List.flatten_cons, blocksOf]
    rw [← hlen, List.take_left, List.drop_left, ih]

theorem forall₂_map_length {F : Type} :
    ∀ {ch : List (List F)} {sizes : List Nat},
      List.Forall₂ (fun blk s => blk.length = s) ch sizes →
        ch.map List.length = sizes := by
  intro ch sizes h
  induction h with
  | nil => rfl
  | cons hlen hrest ih => simp [hlen, ih]

theorem forall₂_mem_trans {α β : Type} {Q : α → β → Prop} :
    ∀ {ch : List α} {parts : List (List α)} {sizes : List β},
      List.Forall₂ (fun a l => a ∈ l) ch parts →
      List.Forall₂ (fun l s => ∀ b ∈ l, Q b s) parts sizes →
        List.Forall₂ Q ch sizes := by
  intro ch parts sizes h1
  induction h1 generalizing sizes with
  | nil =>
    intro h2; cases h2; exact List.Forall₂.nil
  | cons hmem hrest ih =>
    intro h2
    cases h2 with
    | cons hq hq2 => exact List.Forall₂.cons (hq _ hmem) (ih hq2)

theorem map_getD_range (pi : List Nat) :
    (List.range pi.length).map (fun i => pi.getD i 0) = pi := by
  induction pi with
  | nil => rfl
  | cons a t ih =>
    simp only [List.length_cons, List.range_succ_eq_map, List.map_cons,
      List.getD_cons_zero, List.map_map]
    conv_rhs => rw [← ih]
    congr 1

theorem map_getD_range' (pi : List Nat) (n : Nat) (hpi : pi.length = n) :
    (List.range' 1 n).map (fun p => pi.getD (p - 1) 0) = pi := by
  subst hpi
  rw [List.range'_eq_map_range, List.map_map]
  have : ((fun p => pi.getD (p - 1) 0) ∘ (fun i => 1 + i)) =
      (fun i => pi.getD i 0) := by
    funext i
    simp [Function.comp, Nat.add_comm]
  rw [this, map_getD_range]

theorem getD_map_range'_aux {γ : Type} (f : Nat → γ) (n i : Nat) (hi : i < n)
    (d : γ) : ((List.range' 1 n).map f).getD i d = f (1 + i) := by
  have hlen : i < ((List.range' 1 n).map f).length := by
    simpa using hi
  rw [List.getD_eq_getElem _ _ hlen, List.getElem_map]
  congr 1
  simp

/-- C7: every vector yielded by `generate_label` is not all-zero, is not a
member of the supplied span, and has p-support contained in the target set
`x_i` (with the share-size list matching the participant count). -/
theorem c7_generate_label_postconditions {F : Type} [Field F] [DecidableEq F]
    (n : Nat) (pi : List Nat) (x_i : Finset Nat) (elems : List F)
    (memSpan : List F → Bool) (hpi : pi.length = n) :
    ∀ v ∈ generate_label n pi x_i elems memSpan,
      ¬ (∀ a ∈ v.c, a = (0 : F)) ∧ memSpan v.c = false ∧ p_support v ⊆ x_i := by
  intro v hv
  simp only [generate_label, List.mem_filterMap] at hv
  obtain ⟨choice, hch, hf⟩ := hv
  set parts : List (List (List F)) :=
    (List.range' 1 n).map (fun p =>
      if p ∈ x_i then pyProduct elems (pi.getD (p - 1) 0)
      else [List.replicate (pi.getD (p - 1) 0) (0 : F)]) with hparts
  by_cases hcond : choice.flatten ≠ List.replicate pi.sum (0 : F) ∧
      ¬ memSpan choice.flatten
  · rw [if_pos hcond] at hf
    injection hf with hf
    subst hf
    have hmem : List.Forall₂ (fun a l => a ∈ l) choice parts := mem_cartProd.mp hch
    have hsizes : List.Forall₂ (fun (l : List (List F)) (s : Nat) => ∀ b ∈ l, b.length = s)
        parts ((List.range' 1 n).map (fun p => pi.getD (p - 1) 0)) := by
      rw [hparts]
      rw [List.forall₂_map_left_iff, List.forall₂_map_right_iff]
      rw [List.forall₂_same]
      intro p hp b hb
      by_cases hpx : p ∈ x_i
      · rw [if_pos hpx] at hb
        exact (mem_pyProduct.mp hb).1
      · rw [if_neg hpx] at hb
        rw [List.mem_singleton.mp hb]
        exact List.length_replicate _ _
    rw [map_getD_range' pi n hpi] at hsizes
    have hlens : List.Forall₂ (fun (blk : List F) (s : Nat) => blk.length = s) choice pi :=
      forall₂_mem_trans hmem hsizes
    have hblocks : blocksOf choice.flatten pi = choice := blocksOf_flatten hlens
    have hflatlen : choice.flatten.length = pi.sum := by
      rw [List.length_flatten, forall₂_map_length hlens]
    refine ⟨?_, ?_, ?_⟩
    · intro hall
      apply hcond.1
      rw [List.eq_replicate_iff]
      exact ⟨hflatlen, hall⟩
    · exact Bool.not_eq_true _ |>.mp hcond.2
    · intro y hy
      simp only [p_support, Finset.mem_image, Finset.mem_filter, Finset.mem_range] at hy
      obtain ⟨i, ⟨hi, hpred⟩, rfl⟩ := hy
      rw [hblocks] at hpred
      by_contra hnx
      have hchlen : choice.length = pi.length := by
        rw [← forall₂_map_length hlens, List.length_map]
      have hgetpart : parts.getD i [[]] = [List.replicate (pi.getD i 0) (0 : F)] := by
        rw [hparts, getD_map_range'_aux _ n i (by omega)]
        have h1i : 1 + i ∉ x_i := by rwa [Nat.add_comm]
        rw [if_neg h1i]
        have hidx : 1 + i - 1 = i := by omega
        rw [hidx]
      have hin : choice.getD i [] ∈ parts.getD i [[]] :=
        forall₂_getD hmem i (by omega) [] [[]]
      rw [hgetpart, List.mem_singleton] at hin
      rw [hin] at hpred
      simp only [List.any_eq_true, decide_eq_true_eq] at hpred
      obtain ⟨b, hb, hbne⟩ := hpred
      exact hbne (List.eq_of_mem_replicate hb)
  · rw [if_neg hcond] at hf
    exact Option.noConfusion hf

/-- Witness for C7: over `GF(2)` with two participants of share size 1,
target set `{1}` and no span exclusion, the vector `(1, 0)` is yielded and
satisfies all three postconditions. -/
theorem c7_generate_label_postconditions_witness :
    ¬ (∀ a ∈ (⟨[1, 0], [1, 1]⟩ : CodeVector (ZMod 2)).c, a = (0 : ZMod 2)) ∧
      (fun (_ : List (ZMod 2)) => false) (⟨[1, 0], [1, 1]⟩ : CodeVector (ZMod 2)).c = false ∧
      p_support (⟨[1, 0], [1, 1]⟩ : CodeVector (ZMod 2)) ⊆ {1} :=
  c7_generate_label_postconditions 2 [1, 1] {1} [(0 : ZMod 2), 1]
    (fun _ => false) (by decide) ⟨[1, 0], [1, 1]⟩ (by decide)

theorem filterMap_getElem_shift {α : Type} (a : α) (t : List α) :
    ∀ (rest : List Nat), (∀ j ∈ rest, 1 ≤ j) →
      rest.filterMap (fun j => (a :: t)[j]?) =
        (rest.map (fun j => j - 1)).filterMap (fun j => t[j]?) := by
  intro rest
  induction rest with
  | nil => intro; rfl
  | cons j r ih =>
    intro hpos
    have hj : 1 ≤ j := hpos j (List.mem_cons_self j r)
    have hjsucc : j = (j - 1) + 1 := by omega
    simp only [List.map_cons, List.filterMap_cons]
    rw [hjsucc, List.getElem?_cons_succ]
    rw [ih (fun x hx => hpos x (List.mem_cons_of_mem j hx))]
    have harith : j - 1 + 1 - 1 = j - 1 := by omega
    rw [harith]

theorem filterMap_getElem_sublist {α : Type} :
    ∀ (l : List α) (idx : List Nat), idx.Pairwise (· < ·) →
      List.Sublist (idx.filterMap (fun i => l[i]?)) l := by
  intro l
  induction l with
  | nil =>
    intro idx _
    have : idx.filterMap (fun i => ([] : List α)[i]?) = [] := by
      induction idx with
      | nil => rfl
      | cons i r ihr => simp [List.filterMap_cons, ihr]
    rw [this]
  | cons a t ih =>
    intro idx hpair
    match idx with
    | [] => exact List.nil_sublist _
    | 0 :: rest =>
      have hrest0 : ∀ j ∈ rest, 0 < j := fun j hj =>
        List.rel_of_pairwise_cons hpair hj
      have hrestpair : rest.Pairwise (· < ·) := hpair.of_cons
      simp only [List.filterMap_cons, List.getElem?_cons_zero]
      rw [filterMap_getElem_shift a t rest (fun j hj => hrest0 j hj)]
      apply List.Sublist.cons₂
      apply ih
      rw [List.pairwise_map]
      exact hrestpair.imp_of_mem (fun ha hb hlt => by
        have := hrest0 _ ha
        have := hrest0 _ hb
        omega)
    | (i + 1) :: rest =>
      have hrestpos : ∀ j ∈ (i + 1) :: rest, 1 ≤ j := by
        intro j hj
        rcases List.mem_cons.mp hj with rfl | hj2
        · omega
        · have := List.rel_of_pairwise_cons hpair hj2
          omega
      rw [filterMap_getElem_shift a t _ hrestpos]
      apply List.Sublist.cons
      apply ih
      rw [List.pairwise_map]
      exact hpair.imp_of_mem (fun ha hb hlt => by
        have := hrestpos _ ha
        have := hrestpos _ hb
        omega)

/-- C2 counterexample: with the concrete labels generated at a node over
`GF(2)` (two participants of share size 1, node set `{1, 2}`, no span
exclusion) and the admissible `random.sample` selection order `[2, 0, 1]`
(skip 0, so all three candidates are kept), the sequence of tried candidates
is not an order-preserving subsequence of the enumeration. -/
theorem c2_tried_order_counterexample :
    SampleSelection
        (generate_label 2 [1, 1] ({1, 2} : Finset Nat) [(0 : ZMod 2), 1]
          (fun _ => false)) [2, 0, 1] 3 ∧
      ¬ List.Sublist
          (pySample
            (generate_label 2 [1, 1] ({1, 2} : Finset Nat) [(0 : ZMod 2), 1]
              (fun _ => false)) [2, 0, 1])
          (generate_label 2 [1, 1] ({1, 2} : Finset Nat) [(0 : ZMod 2), 1]
            (fun _ => false)) := by
  constructor
  · exact ⟨by decide, by decide, by decide⟩
  · intro hsub
    have hlen := hsub.eq_of_length (by decide)
    exact absurd hlen (by decide)

/-- C2 (amended): the candidates tried after sampling form a sub-permutation
of the LabelGenerator enumeration — every tried candidate is a generated one
and each generated position is tried at most once — but `random.sample`
returns them in selection order, so the order of the enumeration is not
preserved in general. -/
theorem c2_tried_subperm_of_generated {α : Type} (gen : List α) (sel : List Nat)
    (k : Nat) (h : SampleSelection gen sel k) :
    List.Subperm (pySample gen sel) gen := by
  obtain ⟨hnd, hbound, hklen⟩ := h
  have hperm : List.Perm (sel.insertionSort (· ≤ ·)) sel :=
    List.perm_insertionSort (· ≤ ·) sel
  have hsortnd : (sel.insertionSort (· ≤ ·)).Nodup := hperm.nodup_iff.mpr hnd
  have hpairle : (sel.insertionSort (· ≤ ·)).Pairwise (· ≤ ·) :=
    List.sorted_insertionSort (· ≤ ·) sel
  have hpairlt : (sel.insertionSort (· ≤ ·)).Pairwise (· < ·) :=
    (hpairle.and hsortnd).imp (fun hab => lt_of_le_of_ne hab.1 hab.2)
  have hsub : List.Sublist
      ((sel.insertionSort (· ≤ ·)).filterMap (fun i => gen[i]?)) gen :=
    filterMap_getElem_sublist gen _ hpairlt
  exact ⟨_, hperm.filterMap (fun i => gen[i]?), hsub⟩

/-- Witness for the amended C2 at the concrete node of the counterexample:
the selection `[2, 0, 1]` is admissible and the tried candidates are a
sub-permutation of the generated ones. -/
theorem c2_tried_subperm_of_generated_witness :
    List.Subperm
      (pySample
        (generate_label 2 [1, 1] ({1, 2} : Finset Nat) [(0 : ZMod 2), 1]
          (fun _ => false)) [2, 0, 1])
      (generate_label 2 [1, 1] ({1, 2} : Finset Nat) [(0 : ZMod 2), 1]
        (fun _ => false)) :=
  c2_tried_subperm_of_generated _ [2, 0, 1] 3 ⟨by decide, by decide, by decide⟩

theorem except_bind_ok_left {ε α β : Type} (a : α) (f : α → Except ε β) :
    (Except.ok a >>= f) = f a := rfl

theorem except_pure_eq_ok {ε α : Type} (a : α) :
    (pure a : Except ε α) = Except.ok a := rfl

theorem mem_powerList : ∀ (l : List Nat) (x : Finset Nat),
    x ∈ powerList l ↔ x ⊆ l.toFinset := by
  intro l
  induction l with
  | nil =>
    intro x
    simp only [powerList, List.foldr_nil, List.mem_singleton, List.toFinset_nil]
    exact ⟨fun h => by simp [h], fun h => Finset.subset_empty.mp h⟩
  | cons a t ih =>
    intro x
    have hunfold : powerList (a :: t) = powerList t ++ (powerList t).map (insert a) := rfl
    rw [hunfold, List.mem_append, List.mem_map, List.toFinset_cons]
    constructor
    · rintro (hx | ⟨y, hy, rfl⟩)
      · exact ((ih x).mp hx).trans (Finset.subset_insert a _)
      · exact Finset.insert_subset_insert a ((ih y).mp hy)
    · intro hx
      by_cases ha : a ∈ x
      · right
        refine ⟨x.erase a, (ih _).mpr (Finset.subset_insert_iff.mp hx), ?_⟩
        exact Finset.insert_erase ha
      · left
        apply (ih x).mpr
        intro b hb
        rcases Finset.mem_insert.mp (hx hb) with rfl | h
        · exact absurd hb ha
        · exact h

theorem nodup_powerList : ∀ (l : List Nat), l.Nodup → (powerList l).Nodup := by
  intro l
  induction l with
  | nil => intro; simp [powerList]
  | cons a t ih =>
    intro hnd
    have hat : a ∉ t := (List.nodup_cons.mp hnd).1
    have hacc := ih (List.nodup_cons.mp hnd).2
    have hunfold : powerList (a :: t) = powerList t ++ (powerList t).map (insert a) := rfl
    rw [hunfold]
    have hnota : ∀ y ∈ powerList t, a ∉ y := by
      intro y hy hay
      exact hat (List.mem_toFinset.mp ((mem_powerList t y).mp hy hay))
    refine List.Nodup.append hacc ?_ ?_
    · refine List.Nodup.map_on ?_ hacc
      intro y hy z hz hinj
      calc y = (insert a y).erase a := (Finset.erase_insert (hnota y hy)).symm
        _ = (insert a z).erase a := by rw [hinj]
        _ = z := Finset.erase_insert (hnota z hz)
    · intro x hx1 hx2
      obtain ⟨y, hy, rfl⟩ := List.mem_map.mp hx2
      exact hnota _ hx1 (Finset.mem_insert_self a y)

theorem toFinset_range'_one (n : Nat) :
    (List.range' 1 n).toFinset = Finset.Icc 1 n := by
  ext x
  rw [List.mem_toFinset, List.mem_range'_1, Finset.mem_Icc]
  omega

theorem list_filter_eq_singleton {α : Type} (p : α → Bool) :
    ∀ (l : List α), l.Nodup → ∀ a ∈ l, (∀ x ∈ l, p x = true ↔ x = a) →
      l.filter p = [a] := by
  intro l
  induction l with
  | nil => intro _ a ha; exact absurd ha (List.not_mem_nil a)
  | cons b t ih =>
    intro hnd a ha hp
    have hbt : b ∉ t := (List.nodup_cons.mp hnd).1
    have htnd : t.Nodup := (List.nodup_cons.mp hnd).2
    rcases List.mem_cons.mp ha with rfl | hat
    · have hpa : p a = true := (hp a (List.mem_cons_self a t)).mpr rfl
      rw [List.filter_cons_of_pos hpa]
      have hrest : t.filter p = [] := by
        rw [List.filter_eq_nil_iff]
        intro x hx hpx
        have := (hp x (List.mem_cons_of_mem a hx)).mp hpx
        exact hbt (this ▸ hx)
      rw [hrest]
    · have hbne : b ≠ a := fun h => hbt (h ▸ hat)
      have hpb : ¬ p b = true := fun h => hbne ((hp b (List.mem_cons_self b t)).mp h)
      rw [List.filter_cons_of_neg (by simpa using hpb)]
      exact ih htnd a hat (fun x hx => hp x (List.mem_cons_of_mem b hx))

theorem mem_delta_mkACcore (n : Nat) (gmin : List (Finset Nat)) (t : Finset Nat) :
    t ∈ (mkACcore n gmin).delta ↔
      t ⊆ participantsOf n ∧ ¬ ∃ g ∈ gmin, g ⊆ t := by
  have h : (mkACcore n gmin).delta =
      (participantsOf n).powerset.filter (fun s => ¬ ∃ g ∈ gmin, g ⊆ s) := rfl
  rw [h, Finset.mem_filter, Finset.mem_powerset]

theorem mem_gamma_mkACcore (n : Nat) (gmin : List (Finset Nat)) (t : Finset Nat) :
    t ∈ (mkACcore n gmin).gamma ↔
      t ⊆ participantsOf n ∧ ∃ g ∈ gmin, g ⊆ t := by
  have h : (mkACcore n gmin).gamma =
      (participantsOf n).powerset.filter (fun s => ∃ g ∈ gmin, g ⊆ s) := rfl
  rw [h, Finset.mem_filter, Finset.mem_powerset]

theorem delta_max_mkACcore (n : Nat) (gmin : List (Finset Nat)) :
    (mkACcore n gmin).delta_max = calculate_group (mkACcore n gmin).delta := rfl

theorem c8_delta_max_n27 :
    (mkACcore 27 [{1}]).delta_max = {Finset.Icc 1 27 \ {1}} := by
  have hdm := delta_max_mkACcore 27 [{1}]
  have hdelta : ∀ t : Finset Nat,
      t ∈ (mkACcore 27 [{1}]).delta ↔ t ⊆ Finset.Icc 1 27 ∧ 1 ∉ t := by
    intro t
    rw [mem_delta_mkACcore]
    have hP : participantsOf 27 = Finset.Icc 1 27 := rfl
    rw [hP]
    simp [Finset.singleton_subset_iff]
  have hsub : ∀ t : Finset Nat, t ⊆ Finset.Icc 1 27 → 1 ∉ t →
      t ⊆ Finset.Icc 1 27 \ {1} := by
    intro t ht h1
    rw [Finset.subset_sdiff]
    exact ⟨ht, by simpa using h1⟩
  have hPmem : Finset.Icc 1 27 \ {1} ∈ (mkACcore 27 [{1}]).delta := by
    rw [hdelta]
    constructor
    · exact Finset.sdiff_subset
    · simp
  rw [hdm, calculate_group_eq_maximals]
  ext t
  rw [mem_maximalSetsIn, Finset.mem_singleton]
  constructor
  · rintro ⟨htd, hmax⟩
    obtain ⟨ht, h1⟩ := (hdelta t).mp htd
    exact hmax _ hPmem (hsub t ht h1)
  · rintro rfl
    refine ⟨hPmem, ?_⟩
    intro j hj hsubj
    obtain ⟨hjP, hj1⟩ := (hdelta j).mp hj
    exact Finset.Subset.antisymm hsubj (hsub j hjP hj1)

theorem c8_dual_gamma_min_n27 :
    dualGammaMinList (mkACcore 27 [{1}]) 27 = [{1}] := by
  unfold dualGammaMinList
  apply list_filter_eq_singleton
  · exact nodup_powerList _ (List.nodup_range' _ _)
  · rw [mem_powerList, toFinset_range'_one]
    simp
  · intro x hx
    rw [mem_powerList, toFinset_range'_one] at hx
    rw [c8_delta_max_n27]
    have hpart : (mkACcore 27 [{1}]).participants = Finset.Icc 1 27 := rfl
    rw [hpart]
    simp only [decide_eq_true_eq, Finset.mem_singleton]
    constructor
    · intro heq
      have h1P : ({1} : Finset Nat) ⊆ Finset.Icc 1 27 := by simp
      calc x = Finset.Icc 1 27 \ (Finset.Icc 1 27 \ x) :=
            (Finset.sdiff_sdiff_eq_self hx).symm
        _ = Finset.Icc 1 27 \ (Finset.Icc 1 27 \ {1}) := by rw [heq]
        _ = {1} := Finset.sdiff_sdiff_eq_self h1P
    · rintro rfl
      rfl

/-- C8 counterexample: the access structure on 27 participants with minimal
qualified set `{a}` contains the participant id 27, yet both its construction
and its `dual()` return structures without raising: the constructor only
decodes the letters actually appearing in the input, and the dual's minimal
sets are complements of maximal forbidden sets, which here never name any id
above 26. -/
theorem c8_more_than_26_participants_counterexample :
    mkAccessStructure 27 [{'a'}] = .ok (mkACcore 27 [{1}]) ∧
      27 ∈ (mkACcore 27 [{1}]).participants ∧
      dual (mkACcore 27 [{1}]) = .ok (mkACcore 27 [{1}]) := by
  have hmapM : ([({'a'} : Finset Char)]).mapM decodeSet = .ok [({1} : Finset Nat)] := by
    decide
  have hmk : mkAccessStructure 27 [{'a'}] = .ok (mkACcore 27 [{1}]) := by
    unfold mkAccessStructure
    rw [hmapM]
    rfl
  refine ⟨hmk, ?_, ?_⟩
  · simp [mkACcore, participantsOf]
  · unfold dual
    have hcard : (mkACcore 27 [{1}]).participants.card = 27 := by
      simp [mkACcore, participantsOf]
    rw [hcard, c8_dual_gamma_min_n27]
    have hencM : ([({1} : Finset Nat)]).mapM encodeSet = .ok [({'a'} : Finset Char)] := by
      decide
    rw [hencM]
    show mkAccessStructure 27 [{'a'}] = _
    exact hmk

/-- C8 (amended): the constructor decodes participant names through the 26
lowercase letters and raises for any other name, so every successfully
constructed structure names only ids `1..26` in its minimal qualified sets;
an access structure whose participant set merely contains ids above 26 is
not rejected — construction and `dual()` can both succeed on it. -/
theorem c8_constructor_ids_bounded (n : Nat) (names : List (Finset Char))
    (ac : AccessStructure) (h : mkAccessStructure n names = .ok ac) :
    ∀ g ∈ ac.gamma_min, ∀ i ∈ g, 1 ≤ i ∧ i ≤ 26 := by
  unfold mkAccessStructure at h
  match hm : names.mapM decodeSet with
  | .error e => rw [hm] at h; exact Except.noConfusion h
  | .ok gmin =>
    rw [hm] at h
    have hac : ac = mkACcore n gmin := by
      injection h with h2
      exact h2.symm
    subst hac
    have hmem : ∀ g ∈ gmin, ∃ s ∈ names, decodeSet s = .ok g := by
      clear h
      induction names generalizing gmin with
      | nil =>
        simp only [List.mapM_nil, pure] at hm
        injection hm with hm
        subst hm
        intro g hg
        exact absurd hg (List.not_mem_nil g)
      | cons s rest ih =>
        rw [List.mapM_cons] at hm
        match hs : decodeSet s with
        | .error e =>
          rw [hs] at hm
          exact Except.noConfusion hm
        | .ok g0 =>
          rw [hs, except_bind_ok_left] at hm
          match hr : rest.mapM decodeSet with
          | .error e =>
            rw [hr] at hm
            exact Except.noConfusion hm
          | .ok grest =>
            rw [hr, except_bind_ok_left, except_pure_eq_ok] at hm
            injection hm with hm
            subst hm
            intro g hg
            rcases List.mem_cons.mp hg with rfl | hg2
            · exact ⟨s, List.mem_cons_self s rest, hs⟩
            · obtain ⟨s2, hs2, hd⟩ := ih grest hr g hg2
              exact ⟨s2, List.mem_cons_of_mem s hs2, hd⟩
    intro g hg i hi
    obtain ⟨s, _, hd⟩ := hmem g hg
    unfold decodeSet at hd
    by_cases hok : ∀ ch ∈ s, (decodeChar ch).isOk = true
    · rw [if_pos hok] at hd
      injection hd with hd
      subst hd
      obtain ⟨ch, hch, hval⟩ := Finset.mem_image.mp hi
      have hchok := hok ch hch
      unfold decodeChar at hchok hval
      match hf : asciiLowercase.findIdx? (fun c => decide (c = ch)) with
      | none =>
        rw [hf] at hchok
        exact absurd hchok (by decide)
      | some j =>
        rw [hf] at hval
        have hjlen : j < asciiLowercase.length :=
          (List.findIdx?_eq_some_iff_findIdx_eq.mp hf).1
        have hlen26 : asciiLowercase.length = 26 := rfl
        simp only [okD] at hval
        omega
    · rw [if_neg hok] at hd
      exact Except.noConfusion hd

/-- Witness for the amended C8: the 2-participant structure built from the
letter set `{a, b}` decodes the participant id 2 within `1..26`. -/
theorem c8_constructor_ids_bounded_witness : 1 ≤ 2 ∧ 2 ≤ 26 :=
  c8_constructor_ids_bounded 2 [{'a', 'b'}] (mkACcore 2 [{1, 2}]) (by decide)
    {1, 2} (by decide) 2 (by decide)

theorem subColsAux_sublist (x y : Finset Nat) (hxy : x ⊆ y) :
    ∀ (pi : List Nat) (i f : Nat),
      List.Sublist (subColsAux x pi i f) (subColsAux y pi i f) := by
  intro pi
  induction pi with
  | nil => intro i f; exact List.Sublist.refl _
  | cons s rest ih =>
    intro i f
    simp only [subColsAux]
    refine List.Sublist.append ?_ (ih (i + 1) (f + s))
    by_cases hx : i ∈ x
    · rw [if_pos hx, if_pos (hxy hx)]
    · rw [if_neg hx]
      exact List.nil_sublist _

theorem subCols_sublist (pi : List Nat) (x y : Finset Nat) (hxy : x ⊆ y) :
    List.Sublist (subCols pi x) (subCols pi y) :=
  subColsAux_sublist x y hxy pi 1 0

theorem combo_extend {F : Type} [Field F] :
    ∀ {cs ds : List Nat}, List.Sublist cs ds → ∀ com : List F,
      ∃ com2 : List F, com2.length = ds.length ∧
        ∀ g : Nat → F,
          (((ds.map g).zip com2).map (fun p => p.1 * p.2)).sum =
            (((cs.map g).zip com).map (fun p => p.1 * p.2)).sum := by
  intro cs ds hsub
  induction hsub with
  | slnil => exact fun com => ⟨[], rfl, fun g => by simp⟩
  | cons a hsub2 ih =>
    intro com
    obtain ⟨com2, hlen, hsum⟩ := ih com
    refine ⟨0 :: com2, by simp [hlen], fun g => ?_⟩
    simp only [List.map_cons, List.zip_cons_cons, List.sum_cons]
    rw [hsum g]
    ring
  | cons₂ a hsub2 ih =>
    intro com
    match com with
    | [] =>
      obtain ⟨com2, hlen, hsum⟩ := ih []
      refine ⟨0 :: com2, by simp [hlen], fun g => ?_⟩
      simp only [List.map_cons, List.zip_cons_cons, List.sum_cons,
        List.zip_nil_right]
      rw [hsum g]
      simp
    | c :: ct =>
      obtain ⟨com2, hlen, hsum⟩ := ih ct
      refine ⟨c :: com2, by simp [hlen], fun g => ?_⟩
      simp only [List.map_cons, List.zip_cons_cons, List.sum_cons]
      rw [hsum g]

theorem linCombCols_submatrix {F : Type} [Field F] (M : List (List F))
    (cols : List Nat) (com : List F) :
    linCombCols (submatrixRows M cols) com =
      M.map (fun row =>
        (((cols.map (fun j => row.getD j 0)).zip com).map
          (fun p => p.1 * p.2)).sum) := by
  unfold linCombCols submatrixRows
  rw [List.map_map]
  rfl

theorem linCombCols_mono {F : Type} [Field F] (M : List (List F)) (pi : List Nat)
    (x y : Finset Nat) (hxy : x ⊆ y) (com : List F) :
    ∃ com2 : List F, com2.length = (subCols pi y).length ∧
      linCombCols (submatrixRows M (subCols pi y)) com2 =
        linCombCols (submatrixRows M (subCols pi x)) com := by
  obtain ⟨com2, hlen, hsum⟩ := combo_extend (subCols_sublist pi x y hxy) com
  refine ⟨com2, hlen, ?_⟩
  rw [linCombCols_submatrix, linCombCols_submatrix]
  apply List.map_congr_left
  intro row _
  exact hsum (fun j => row.getD j 0)

theorem pyProduct_cons_head {α : Type} (z : α) (rest : List α) :
    ∀ k : Nat, ∃ t, pyProduct (z :: rest) k = List.replicate k z :: t := by
  intro k
  induction k with
  | zero => exact ⟨[], rfl⟩
  | succ k ih =>
    obtain ⟨t, ht⟩ := ih
    refine ⟨t.map (z :: ·) ++
      rest.flatMap (fun e => (pyProduct (z :: rest) k).map (e :: ·)), ?_⟩
    simp only [pyProduct, List.flatMap_cons, ht, List.map_cons]
    rw [List.replicate_succ]
    rfl

theorem flatMap_cons_map_nodup {α : Type} :
    ∀ (es : List α) (L : List (List α)), es.Nodup → L.Nodup →
      (es.flatMap (fun e => L.map (e :: ·))).Nodup := by
  intro es L hes hL
  induction es with
  | nil => exact List.nodup_nil
  | cons e es2 ih =>
    rw [List.flatMap_cons]
    refine List.Nodup.append ?_ (ih (List.nodup_cons.mp hes).2) ?_
    · refine List.Nodup.map_on ?_ hL
      intro y _ z _ hyz
      injection hyz
    · intro x hx1 hx2
      obtain ⟨y, _, rfl⟩ := List.mem_map.mp hx1
      obtain ⟨e2, he2, hmem⟩ := List.mem_flatMap.mp hx2
      obtain ⟨z, _, hz⟩ := List.mem_map.mp hmem
      have he2e : e2 = e := by injection hz
      subst he2e
      exact (List.nodup_cons.mp hes).1 he2

theorem pyProduct_nodup {α : Type} (elems : List α) (hnd : elems.Nodup) :
    ∀ k : Nat, (pyProduct elems k).Nodup := by
  intro k
  induction k with
  | zero => simp [pyProduct]
  | succ k ih => exact flatMap_cons_map_nodup elems (pyProduct elems k) hnd ih

theorem mem_linCombUnits_iff {F : Type} [Field F] [DecidableEq F]
    (elems : List F) (k nrows : Nat)
    (he : ∀ a : F, a ∈ elems) (hnd : elems.Nodup) (h0 : elems.head? = some 0)
    (v : List F) :
    v ∈ linCombUnits elems k nrows ↔
      ∃ com : List F, com.length = k ∧ (∃ a ∈ com, a ≠ 0) ∧
        v = linCombCols (unitsMatT F k nrows) com := by
  match elems with
  | [] => exact absurd h0 (by simp)
  | z :: rest =>
    have hz : z = 0 := by
      simpa using h0
    subst hz
    obtain ⟨t, ht⟩ := pyProduct_cons_head (0 : F) rest k
    unfold linCombUnits
    rw [ht]
    have hdrop : (List.replicate k (0 : F) :: t).drop 1 = t := rfl
    rw [hdrop, List.mem_map]
    constructor
    · rintro ⟨com, hcom, rfl⟩
      have hmemP : com ∈ pyProduct ((0 : F) :: rest) k := by
        rw [ht]
        exact List.mem_cons_of_mem _ hcom
      obtain ⟨hlen, -⟩ := mem_pyProduct.mp hmemP
      refine ⟨com, hlen, ?_, rfl⟩
      have hnodup := pyProduct_nodup ((0 : F) :: rest) hnd k
      rw [ht] at hnodup
      have hne : com ≠ List.replicate k (0 : F) := by
        intro h
        subst h
        exact (List.nodup_cons.mp hnodup).1 hcom
      by_contra hall
      push_neg at hall
      exact hne (List.eq_replicate_iff.mpr ⟨hlen, hall⟩)
    · rintro ⟨com, hlen, ⟨a, ha, hane⟩, rfl⟩
      refine ⟨com, ?_, rfl⟩
      have hmemP : com ∈ pyProduct ((0 : F) :: rest) k :=
        mem_pyProduct.mpr ⟨hlen, fun b _ => he b⟩
      rw [ht] at hmemP
      rcases List.mem_cons.mp hmemP with heq | hmem2
      · exfalso
        rw [heq] at ha
        exact hane (List.eq_of_mem_replicate ha)
      · exact hmem2

theorem exists_maximal_superset (S : Finset (Finset Nat)) (s : Finset Nat)
    (hs : s ∈ S) : ∃ m, m ∈ maximalSetsIn S ∧ s ⊆ m := by
  have hTne : (S.filter (fun t => s ⊆ t)).Nonempty :=
    ⟨s, Finset.mem_filter.mpr ⟨hs, Finset.Subset.refl s⟩⟩
  obtain ⟨m, hmT, hmax⟩ :=
    Finset.exists_max_image (S.filter (fun t => s ⊆ t)) Finset.card hTne
  obtain ⟨hmS, hsm⟩ := Finset.mem_filter.mp hmT
  refine ⟨m, mem_maximalSetsIn.mpr ⟨hmS, ?_⟩, hsm⟩
  intro j hjS hmj
  have hjT : j ∈ S.filter (fun t => s ⊆ t) :=
    Finset.mem_filter.mpr ⟨hjS, hsm.trans hmj⟩
  exact Finset.eq_of_subset_of_card_le hmj (hmax j hjT)

theorem validator_eq_true_iff {F : Type} [Field F] [DecidableEq F]
    (elems : List F) (pi : List Nat) (k : Nat) (ac : AccessStructure)
    (M : List (List F)) :
    is_valid_gen_vec_constr elems pi k ac M = (true, "") ↔
      ((∀ x ∈ ac.gamma, ∀ u ∈ unitsList F k M.length,
          ∃ com ∈ pyProduct elems (subCols pi x).length,
            linCombCols (submatrixRows M (subCols pi x)) com = u) ∧
        (∀ x ∈ ac.delta, ∀ com ∈ pyProduct elems (subCols pi x).length,
          linCombCols (submatrixRows M (subCols pi x)) com ∉
            linCombUnits elems k M.length)) := by
  unfold is_valid_gen_vec_constr
  split_ifs with h1 h2
  · exact iff_of_true rfl ⟨h1, h2⟩
  · exact iff_of_false (by simp [Prod.ext_iff]) (fun h => h2 h.2)
  · exact iff_of_false (by simp [Prod.ext_iff]) (fun h => h1 h.1)

/-- C4: the validator accepts an assembled matrix exactly when both
conditions hold on the extremal representatives — every minimal qualified
set can express each of the `k` unit vectors as a column combination of its
restricted submatrix, and no maximal forbidden set's restricted submatrix
has a column combination equal to a nonzero combination of those unit
vectors.  The code iterates over all of `gamma` and `delta`; the theorem
shows this brute force is equivalent to checking only `gamma_min` and
`delta_max`.  Hypotheses: the field enumeration `elems` is complete, without
duplicates and starts with `0` (as `base_ring.list()` does in Sage), the
minimal sets name actual participants, and `k` does not exceed the row count
(otherwise the Python code raises while building the unit vectors). -/
theorem c4_validator_accepts_iff_extremal_conditions {F : Type} [Field F]
    [DecidableEq F] (elems : List F) (n : Nat) (gmin : List (Finset Nat))
    (pi : List Nat) (k : Nat) (M : List (List F))
    (he : ∀ a : F, a ∈ elems) (hnd : elems.Nodup) (h0 : elems.head? = some 0)
    (hk : k ≤ M.length) (hg : ∀ g ∈ gmin, g ⊆ participantsOf n) :
    is_valid_gen_vec_constr elems pi k (mkACcore n gmin) M = (true, "") ↔
      ((∀ g ∈ gmin, ∀ u ∈ unitsList F k M.length,
          ∃ com : List F, com.length = (subCols pi g).length ∧
            linCombCols (submatrixRows M (subCols pi g)) com = u) ∧
        (∀ d ∈ (mkACcore n gmin).delta_max,
          ∀ com : List F, com.length = (subCols pi d).length →
            ∀ com2 : List F, com2.length = k → (∃ a ∈ com2, a ≠ 0) →
              linCombCols (submatrixRows M (subCols pi d)) com ≠
                linCombCols (unitsMatT F k M.length) com2)) := by
  rw [validator_eq_true_iff]
  constructor
  · rintro ⟨hV1, hV2⟩
    constructor
    · intro g hgmem u hu
      have hgg : g ∈ (mkACcore n gmin).gamma :=
        (mem_gamma_mkACcore n gmin g).mpr
          ⟨hg g hgmem, g, hgmem, Finset.Subset.refl g⟩
      obtain ⟨com, hcomP, hcomeq⟩ := hV1 g hgg u hu
      exact ⟨com, (mem_pyProduct.mp hcomP).1, hcomeq⟩
    · intro d hd com hcomlen com2 hcom2len hcom2nz heq
      have hdd : d ∈ (mkACcore n gmin).delta := by
        rw [delta_max_mkACcore, calculate_group_eq_maximals] at hd
        exact (mem_maximalSetsIn.mp hd).1
      have hcomP : com ∈ pyProduct elems (subCols pi d).length :=
        mem_pyProduct.mpr ⟨hcomlen, fun b _ => he b⟩
      apply hV2 d hdd com hcomP
      rw [heq]
      exact (mem_linCombUnits_iff elems k M.length he hnd h0 _).mpr
        ⟨com2, hcom2len, hcom2nz, rfl⟩
  · rintro ⟨hS1, hS2⟩
    constructor
    · intro x hx u hu
      obtain ⟨hxP, g, hgmem, hgx⟩ := (mem_gamma_mkACcore n gmin x).mp hx
      obtain ⟨com, hlen, heq⟩ := hS1 g hgmem u hu
      obtain ⟨com2, hlen2, heq2⟩ := linCombCols_mono M pi g x hgx com
      exact ⟨com2, mem_pyProduct.mpr ⟨hlen2, fun b _ => he b⟩,
        by rw [heq2, heq]⟩
    · intro x hx com hcomP hbad
      obtain ⟨d, hdmax, hxdsub⟩ :=
        exists_maximal_superset (mkACcore n gmin).delta x hx
      have hddm : d ∈ (mkACcore n gmin).delta_max := by
        rw [delta_max_mkACcore, calculate_group_eq_maximals]
        exact hdmax
      obtain ⟨com2, hcom2len, hcom2nz, hval⟩ :=
        (mem_linCombUnits_iff elems k M.length he hnd h0 _).mp hbad
      obtain ⟨com3, hlen3, heq3⟩ := linCombCols_mono M pi x d hxdsub com
      exact hS2 d hddm com3 hlen3 com2 hcom2len hcom2nz
        (by rw [heq3]; exact hval)

/-- Witness for C4 over `GF(2)`: two participants of share size 1, minimal
qualified set `{1, 2}`, `k = 1` and the matrix with columns `(1,1)` and
`(0,1)`; the validator accepts and the extremal conditions hold. -/
theorem c4_validator_accepts_iff_extremal_conditions_witness :
    (∀ g ∈ [({1, 2} : Finset Nat)],
        ∀ u ∈ unitsList (ZMod 2) 1 ([[1, 0], [1, 1]] : List (List (ZMod 2))).length,
          ∃ com : List (ZMod 2), com.length = (subCols [1, 1] g).length ∧
            linCombCols (submatrixRows [[1, 0], [1, 1]] (subCols [1, 1] g)) com = u) ∧
      (∀ d ∈ (mkACcore 2 [{1, 2}]).delta_max,
        ∀ com : List (ZMod 2), com.length = (subCols [1, 1] d).length →
          ∀ com2 : List (ZMod 2), com2.length = 1 → (∃ a ∈ com2, a ≠ 0) →
            linCombCols (submatrixRows [[1, 0], [1, 1]] (subCols [1, 1] d)) com ≠
              linCombCols (unitsMatT (ZMod 2) 1 2) com2) :=
  (c4_validator_accepts_iff_extremal_conditions [(0 : ZMod 2), 1] 2 [{1, 2}]
    [1, 1] 1 [[1, 0], [1, 1]] (by decide) (by decide) (by decide) (by decide)
    (by decide)).mp (by decide)

theorem delta_dcl (n : Nat) (A : List (Finset Nat)) {s t : Finset Nat}
    (hs : s ∈ (mkACcore n A).delta) (hts : t ⊆ s) :
    t ∈ (mkACcore n A).delta := by
  rw [mem_delta_mkACcore] at hs ⊢
  obtain ⟨hsP, hno⟩ := hs
  refine ⟨hts.trans hsP, ?_⟩
  rintro ⟨g, hg, hgt⟩
  exact hno ⟨g, hg, hgt.trans hts⟩

theorem sdiff_subset_flip {P x y : Finset Nat} :
    P \ x ⊆ y ↔ P \ y ⊆ x := by
  constructor
  · intro h e he
    rw [Finset.mem_sdiff] at he
    by_contra hex
    exact he.2 (h (Finset.mem_sdiff.mpr ⟨he.1, hex⟩))
  · intro h e he
    rw [Finset.mem_sdiff] at he
    by_contra hey
    exact he.2 (h (Finset.mem_sdiff.mpr ⟨he.1, hey⟩))

theorem mem_dualGammaMinList (ac : AccessStructure) (n : Nat) (x : Finset Nat) :
    x ∈ dualGammaMinList ac n ↔
      x ⊆ Finset.Icc 1 n ∧ ac.participants \ x ∈ ac.delta_max := by
  unfold dualGammaMinList
  rw [List.mem_filter, mem_powerList, toFinset_range'_one, decide_eq_true_eq]

theorem participants_mkACcore (n : Nat) (A : List (Finset Nat)) :
    (mkACcore n A).participants = Finset.Icc 1 n := rfl

theorem dual_gen_iff (n : Nat) (A : List (Finset Nat)) (s : Finset Nat)
    (hs : s ⊆ Finset.Icc 1 n) :
    (∃ g ∈ dualGammaMinList (mkACcore n A) n, g ⊆ s) ↔
      Finset.Icc 1 n \ s ∈ (mkACcore n A).delta := by
  constructor
  · rintro ⟨g, hg, hgs⟩
    rw [mem_dualGammaMinList, participants_mkACcore] at hg
    obtain ⟨hgP, hgd⟩ := hg
    rw [delta_max_mkACcore, calculate_group_eq_maximals] at hgd
    have hmemdelta : Finset.Icc 1 n \ g ∈ (mkACcore n A).delta :=
      (mem_maximalSetsIn.mp hgd).1
    exact delta_dcl n A hmemdelta
      (Finset.sdiff_subset_sdiff (Finset.Subset.refl _) hgs)
  · intro hs2
    obtain ⟨m, hmmax, hsub⟩ :=
      exists_maximal_superset (mkACcore n A).delta (Finset.Icc 1 n \ s) hs2
    have hmP : m ⊆ Finset.Icc 1 n := by
      have := (mem_delta_mkACcore n A m).mp (mem_maximalSetsIn.mp hmmax).1
      exact this.1
    refine ⟨Finset.Icc 1 n \ m, ?_, ?_⟩
    · rw [mem_dualGammaMinList, participants_mkACcore]
      refine ⟨Finset.sdiff_subset, ?_⟩
      rw [Finset.sdiff_sdiff_eq_self hmP, delta_max_mkACcore,
        calculate_group_eq_maximals]
      exact hmmax
    · rw [sdiff_subset_flip]
      exact hsub

theorem mem_delta_dual (n : Nat) (A : List (Finset Nat)) (s : Finset Nat) :
    s ∈ (mkACcore n (dualGammaMinList (mkACcore n A) n)).delta ↔
      s ⊆ Finset.Icc 1 n ∧ Finset.Icc 1 n \ s ∉ (mkACcore n A).delta := by
  rw [mem_delta_mkACcore]
  have hP : participantsOf n = Finset.Icc 1 n := rfl
  rw [hP]
  constructor
  · rintro ⟨hsP, hno⟩
    exact ⟨hsP, fun hc => hno ((dual_gen_iff n A s hsP).mpr hc)⟩
  · rintro ⟨hsP, hnd⟩
    exact ⟨hsP, fun hex => hnd ((dual_gen_iff n A s hsP).mp hex)⟩

theorem not_mem_delta_iff_gamma (n : Nat) (A : List (Finset Nat))
    (t : Finset Nat) (htP : t ⊆ Finset.Icc 1 n) :
    t ∉ (mkACcore n A).delta ↔ t ∈ (mkACcore n A).gamma := by
  rw [mem_delta_mkACcore, mem_gamma_mkACcore]
  have hP : participantsOf n = Finset.Icc 1 n := rfl
  rw [hP]
  constructor
  · intro h
    by_cases hex : ∃ g ∈ A, g ⊆ t
    · exact ⟨htP, hex⟩
    · exact absurd ⟨htP, hex⟩ h
  · rintro ⟨-, hex⟩ ⟨-, hno⟩
    exact hno hex

theorem max_delta_dual_iff_min_gamma (n : Nat) (A : List (Finset Nat))
    (t : Finset Nat) :
    t ∈ maximalSetsIn (mkACcore n (dualGammaMinList (mkACcore n A) n)).delta ↔
      t ⊆ Finset.Icc 1 n ∧
        Finset.Icc 1 n \ t ∈ minimalSetsIn (mkACcore n A).gamma := by
  rw [mem_maximalSetsIn, mem_minimalSetsIn]
  constructor
  · rintro ⟨htd, hmax⟩
    obtain ⟨htP, hnd⟩ := (mem_delta_dual n A t).mp htd
    have hgam : Finset.Icc 1 n \ t ∈ (mkACcore n A).gamma :=
      (not_mem_delta_iff_gamma n A _ Finset.sdiff_subset).mp hnd
    refine ⟨htP, hgam, ?_⟩
    intro j hjgam hjsub
    have hjP : j ⊆ Finset.Icc 1 n := by
      have := (mem_gamma_mkACcore n A j).mp hjgam
      exact this.1
    have ht2d : Finset.Icc 1 n \ j ∈
        (mkACcore n (dualGammaMinList (mkACcore n A) n)).delta := by
      rw [mem_delta_dual]
      refine ⟨Finset.sdiff_subset, ?_⟩
      rw [Finset.sdiff_sdiff_eq_self hjP]
      exact (not_mem_delta_iff_gamma n A j hjP).mpr hjgam
    have htt2 : t ⊆ Finset.Icc 1 n \ j := by
      intro e he
      rw [Finset.mem_sdiff]
      exact ⟨htP he, fun hej => (Finset.mem_sdiff.mp (hjsub hej)).2 he⟩
    have heq := hmax _ ht2d htt2
    rw [heq, Finset.sdiff_sdiff_eq_self hjP]
  · rintro ⟨htP, hgam, hmin⟩
    constructor
    · rw [mem_delta_dual]
      exact ⟨htP, fun hc =>
        ((not_mem_delta_iff_gamma n A _ Finset.sdiff_subset).mpr hgam) hc⟩
    · intro j hjd2 htj
      obtain ⟨hjP, hjnd⟩ := (mem_delta_dual n A j).mp hjd2
      have hjgam : Finset.Icc 1 n \ j ∈ (mkACcore n A).gamma :=
        (not_mem_delta_iff_gamma n A _ Finset.sdiff_subset).mp hjnd
      have hsub : Finset.Icc 1 n \ j ⊆ Finset.Icc 1 n \ t :=
        Finset.sdiff_subset_sdiff (Finset.Subset.refl _) htj
      have heq := hmin _ hjgam hsub
      calc t = Finset.Icc 1 n \ (Finset.Icc 1 n \ t) :=
            (Finset.sdiff_sdiff_eq_self htP).symm
        _ = Finset.Icc 1 n \ (Finset.Icc 1 n \ j) := by rw [heq]
        _ = j := Finset.sdiff_sdiff_eq_self hjP

theorem min_gamma_iff_mem (n : Nat) (A : List (Finset Nat))
    (hA : ∀ g ∈ A, g ⊆ Finset.Icc 1 n)
    (hanti : ∀ a ∈ A, ∀ b ∈ A, a ⊆ b → a = b) (z : Finset Nat) :
    z ∈ minimalSetsIn (mkACcore n A).gamma ↔ z ∈ A := by
  rw [mem_minimalSetsIn]
  constructor
  · rintro ⟨hzgam, hmin⟩
    obtain ⟨hzP, g, hgA, hgz⟩ := (mem_gamma_mkACcore n A z).mp hzgam
    have hggam : g ∈ (mkACcore n A).gamma :=
      (mem_gamma_mkACcore n A g).mpr ⟨hA g hgA, g, hgA, Finset.Subset.refl g⟩
    have heq := hmin g hggam hgz
    rw [heq]
    exact hgA
  · intro hzA
    refine ⟨(mem_gamma_mkACcore n A z).mpr
      ⟨hA z hzA, z, hzA, Finset.Subset.refl z⟩, ?_⟩
    intro j hjgam hjz
    obtain ⟨hjP, g, hgA, hgj⟩ := (mem_gamma_mkACcore n A j).mp hjgam
    have hgz : g ⊆ z := hgj.trans hjz
    have hgeq := hanti g hgA z hzA hgz
    have hzj : z ⊆ j := hgeq ▸ hgj
    exact Finset.Subset.antisymm hzj hjz

theorem mem_dual_dual_iff (n : Nat) (A : List (Finset Nat))
    (hA : ∀ g ∈ A, g ⊆ Finset.Icc 1 n)
    (hanti : ∀ a ∈ A, ∀ b ∈ A, a ⊆ b → a = b) (x : Finset Nat) :
    x ∈ dualGammaMinList
        (mkACcore n (dualGammaMinList (mkACcore n A) n)) n ↔ x ∈ A := by
  rw [mem_dualGammaMinList, participants_mkACcore]
  constructor
  · rintro ⟨hxP, hxd⟩
    rw [delta_max_mkACcore, calculate_group_eq_maximals] at hxd
    obtain ⟨-, hmin⟩ := (max_delta_dual_iff_min_gamma n A _).mp hxd
    rw [Finset.sdiff_sdiff_eq_self hxP] at hmin
    exact (min_gamma_iff_mem n A hA hanti x).mp hmin
  · intro hxA
    have hxP := hA x hxA
    refine ⟨hxP, ?_⟩
    rw [delta_max_mkACcore, calculate_group_eq_maximals]
    apply (max_delta_dual_iff_min_gamma n A _).mpr
    refine ⟨Finset.sdiff_subset, ?_⟩
    rw [Finset.sdiff_sdiff_eq_self hxP]
    exact (min_gamma_iff_mem n A hA hanti x).mpr hxA

theorem encodeId_isOk (i : Nat) (h1 : 1 ≤ i) (h2 : i ≤ 26) :
    (encodeId i).isOk = true := by
  unfold encodeId pyGetIndex
  have hlen : asciiLowercase.length = 26 := rfl
  have hidx : pyIndex ((i : Int) - 1) asciiLowercase.length = (i : Int) - 1 := by
    unfold pyIndex
    rw [if_neg (by omega)]
  rw [dif_pos (by rw [hidx, hlen]; constructor <;> omega)]
  rfl

theorem decode_encode_id : ∀ i ∈ Finset.Icc 1 26,
    decodeChar (okD (encodeId i) 'a') = .ok i := by decide

theorem encodeSet_decodeSet (v : Finset Nat) (hv : ∀ i ∈ v, 1 ≤ i ∧ i ≤ 26) :
    ∃ c, encodeSet v = .ok c ∧ decodeSet c = .ok v := by
  have hok : ∀ i ∈ v, (encodeId i).isOk = true := fun i hi =>
    encodeId_isOk i (hv i hi).1 (hv i hi).2
  refine ⟨v.image (fun i => okD (encodeId i) 'a'), ?_, ?_⟩
  · unfold encodeSet
    rw [if_pos hok]
  · unfold decodeSet
    have hchok : ∀ ch ∈ v.image (fun i => okD (encodeId i) 'a'),
        (decodeChar ch).isOk = true := by
      intro ch hch
      obtain ⟨i, hi, rfl⟩ := Finset.mem_image.mp hch
      rw [decode_encode_id i (Finset.mem_Icc.mpr (hv i hi))]
      rfl
    rw [if_pos hchok]
    congr 1
    rw [Finset.image_image]
    have himg : ∀ i ∈ v,
        ((fun ch => okD (decodeChar ch) 0) ∘ (fun i => okD (encodeId i) 'a')) i
          = id i := by
      intro i hi
      simp only [Function.comp, id]
      rw [decode_encode_id i (Finset.mem_Icc.mpr (hv i hi))]
      rfl
    calc v.image ((fun ch => okD (decodeChar ch) 0) ∘ (fun i => okD (encodeId i) 'a'))
        = v.image id := Finset.image_congr (fun i hi => himg i hi)
      _ = v := Finset.image_id

theorem mapM_paired {ε α β : Type} (f : α → Except ε β) (g : β → Except ε α) :
    ∀ l : List α, (∀ a ∈ l, ∃ b, f a = .ok b ∧ g b = .ok a) →
      ∃ l2, l.mapM f = .ok l2 ∧ l2.mapM g = .ok l := by
  intro l
  induction l with
  | nil => exact fun _ => ⟨[], rfl, rfl⟩
  | cons a t ih =>
    intro h
    obtain ⟨b, hfb, hgb⟩ := h a (List.mem_cons_self a t)
    obtain ⟨l2, hfl, hgl⟩ := ih (fun x hx => h x (List.mem_cons_of_mem a hx))
    refine ⟨b :: l2, ?_, ?_⟩
    · rw [List.mapM_cons, hfb, except_bind_ok_left, hfl, except_bind_ok_left,
        except_pure_eq_ok]
    · rw [List.mapM_cons, hgb, except_bind_ok_left, hgl, except_bind_ok_left,
        except_pure_eq_ok]

theorem dual_mkACcore (n : Nat) (A : List (Finset Nat)) (hn : n ≤ 26) :
    dual (mkACcore n A) =
      .ok (mkACcore n (dualGammaMinList (mkACcore n A) n)) := by
  unfold dual
  have hcard : (mkACcore n A).participants.card = n := by
    rw [participants_mkACcore, Nat.card_Icc]
    omega
  rw [hcard]
  have hpair : ∀ v ∈ dualGammaMinList (mkACcore n A) n,
      ∃ c, encodeSet v = .ok c ∧ decodeSet c = .ok v := by
    intro v hv
    apply encodeSet_decodeSet
    intro i hi
    have hvP : v ⊆ Finset.Icc 1 n :=
      ((mem_dualGammaMinList _ _ _).mp hv).1
    have := Finset.mem_Icc.mp (hvP hi)
    omega
  obtain ⟨names, henc, hdec⟩ := mapM_paired encodeSet decodeSet _ hpair
  rw [henc, except_bind_ok_left]
  unfold mkAccessStructure
  rw [hdec]
  rfl

/-- C5: for every access structure built from a family of minimal qualified
sets (an antichain of subsets of the participant set, nameable within the
26-letter alphabet), `dual().dual()` succeeds and is structurally equal to
the original under `__eq__` (set-of-sets comparison of `gamma_min` and
`delta_max`, independent of key order). -/
theorem c5_dual_involutive (n : Nat) (gmin : List (Finset Nat))
    (hA : ∀ g ∈ gmin, g ⊆ Finset.Icc 1 n)
    (hanti : List.Pairwise (fun a b => ¬ a ⊆ b ∧ ¬ b ⊆ a) gmin)
    (hn : n ≤ 26) :
    ∃ ac1 ac2, dual (mkACcore n gmin) = .ok ac1 ∧ dual ac1 = .ok ac2 ∧
      acEq ac2 (mkACcore n gmin) := by
  have hanti2 : ∀ a ∈ gmin, ∀ b ∈ gmin, a ⊆ b → a = b := by
    intro a ha b hb hab
    by_contra hne
    have hsym : Symmetric (fun (a b : Finset Nat) => ¬ a ⊆ b ∧ ¬ b ⊆ a) :=
      fun u v huv => ⟨huv.2, huv.1⟩
    exact (hanti.forall hsym ha hb hne).1 hab
  have h1 := dual_mkACcore n gmin hn
  have h2 := dual_mkACcore n (dualGammaMinList (mkACcore n gmin) n) hn
  refine ⟨_, _, h1, h2, ?_⟩
  have hmemiff : ∀ x,
      x ∈ dualGammaMinList
          (mkACcore n (dualGammaMinList (mkACcore n gmin) n)) n ↔
        x ∈ gmin :=
    mem_dual_dual_iff n gmin hA hanti2
  have hnodupL2 : (dualGammaMinList
      (mkACcore n (dualGammaMinList (mkACcore n gmin) n)) n).Nodup := by
    unfold dualGammaMinList
    exact List.Nodup.filter _ (nodup_powerList _ (List.nodup_range' 1 n))
  have hnodupA : gmin.Nodup := by
    refine hanti.imp ?_
    intro a b hab heq
    exact hab.1 (heq ▸ Finset.Subset.refl a)
  have htfin : (dualGammaMinList
      (mkACcore n (dualGammaMinList (mkACcore n gmin) n)) n).toFinset =
      gmin.toFinset := by
    ext x
    rw [List.mem_toFinset, List.mem_toFinset, hmemiff]
  have hlen : (dualGammaMinList
      (mkACcore n (dualGammaMinList (mkACcore n gmin) n)) n).length =
      gmin.length := by
    rw [← List.toFinset_card_of_nodup hnodupL2,
      ← List.toFinset_card_of_nodup hnodupA, htfin]
  have hdelta_eq : (mkACcore n (dualGammaMinList
      (mkACcore n (dualGammaMinList (mkACcore n gmin) n)) n)).delta =
      (mkACcore n gmin).delta := by
    have hfc : ∀ s : Finset Nat,
        (¬ ∃ g ∈ dualGammaMinList
            (mkACcore n (dualGammaMinList (mkACcore n gmin) n)) n, g ⊆ s) ↔
          (¬ ∃ g ∈ gmin, g ⊆ s) := by
      intro s
      constructor
      · rintro hno ⟨g, hg, hgs⟩
        exact hno ⟨g, (hmemiff g).mpr hg, hgs⟩
      · rintro hno ⟨g, hg, hgs⟩
        exact hno ⟨g, (hmemiff g).mp hg, hgs⟩
    show (participantsOf n).powerset.filter _ =
      (participantsOf n).powerset.filter _
    apply Finset.filter_congr
    intro s _
    exact hfc s
  have hdmax_eq : (mkACcore n (dualGammaMinList
      (mkACcore n (dualGammaMinList (mkACcore n gmin) n)) n)).delta_max =
      (mkACcore n gmin).delta_max := by
    rw [delta_max_mkACcore, delta_max_mkACcore, hdelta_eq]
  refine ⟨rfl, hlen, fun v hv => (hmemiff v).mp hv,
    fun v hv => (hmemiff v).mpr hv, by rw [hdmax_eq],
    fun v hv => by rw [hdmax_eq] at hv; exact hv,
    fun v hv => by rw [hdmax_eq]; exact hv⟩

/-- Witness for C5 at the 4-participant example `{1,2}, {3,4}, {2,3}`:
the hypotheses hold and the first dual computation succeeds. -/
theorem c5_dual_involutive_witness :
    (dual (mkACcore 4 [{1, 2}, {3, 4}, {2, 3}])).isOk = true := by
  obtain ⟨ac1, ac2, hd1, -, -⟩ :=
    c5_dual_involutive 4 [{1, 2}, {3, 4}, {2, 3}] (by decide) (by decide)
      (by decide)
  rw [hd1]
  rfl

/-- C9: `Vector.__hash__` evaluates `hash(self.c + self.parameters)`; whenever
the total length of the field vector (the sum of the block sizes) differs
from the number of blocks, the Sage coercion of the tuple fails and the hash
raises a `TypeError` instead of returning, so such vectors cannot be used as
set members or dictionary keys. -/
theorem c9_vector_hash_raises {F : Type} [Field F] (v : CodeVector F)
    (h1 : v.c.length = v.parameters.sum)
    (h2 : v.parameters.sum ≠ v.parameters.length) :
    vectorHash v = .error "TypeError: unsupported operand parent for plus" := by
  unfold vectorHash
  rw [h1, if_neg h2]

/-- Witness for C9 at the concrete vector `(1,0,1)` with block sizes `(2,1)`:
the well-formedness and mismatch hypotheses hold and the hash raises. -/
theorem c9_vector_hash_raises_witness :
    vectorHash (⟨[1, 0, 1], [2, 1]⟩ : CodeVector (ZMod 2)) =
      .error "TypeError: unsupported operand parent for plus" :=
  c9_vector_hash_raises ⟨[1, 0, 1], [2, 1]⟩ (by decide) (by decide)

/-- C10: `jth_unit_vector` rejects only index `0` and indices above the
dimension; for every `dim ≥ 2` the negative index `j = -1` raises no error
and, by Python's negative-index wrap-around of `e[j - 1]`, returns the vector
whose single `1` sits at 1-based coordinate `dim - 1` (0-based `dim - 2`). -/
theorem c10_jth_unit_vector_neg_index {F : Type} [Field F] (dim : Nat)
    (h : 2 ≤ dim) :
    jth_unit_vector F (-1) dim =
        .ok ((List.replicate dim (0 : F)).set (dim - 2) 1) ∧
      ((List.replicate dim (0 : F)).set (dim - 2) 1).getD (dim - 2) 0 = 1 ∧
      ∀ i < dim, i ≠ dim - 2 →
        ((List.replicate dim (0 : F)).set (dim - 2) 1).getD i 0 = 0 := by
  have hidx : pyIndex ((-1 : Int) - 1) (List.replicate dim (0 : F)).length = (dim : Int) - 2 := by
    simp only [pyIndex, List.length_replicate]
    rw [if_pos (by omega)]
    omega
  refine ⟨?_, ?_, ?_⟩
  · unfold jth_unit_vector pyListSet
    rw [if_neg (by omega), if_neg (by omega), hidx]
    rw [if_pos (by simp only [List.length_replicate]; constructor <;> omega)]
    congr 2
    omega
  · have hlen : dim - 2 < ((List.replicate dim (0 : F)).set (dim - 2) 1).length := by
      simp only [List.length_set, List.length_replicate]; omega
    rw [List.getD_eq_getElem _ _ hlen]
    rw [List.getElem_set_self]
  · intro i hi hne
    have hlen : i < ((List.replicate dim (0 : F)).set (dim - 2) 1).length := by
      simp only [List.length_set, List.length_replicate]; omega
    rw [List.getD_eq_getElem _ _ hlen]
    rw [List.getElem_set_ne (by omega)]
    simp

/-- Witness for C10 at `dim = 3` over `GF(2)`: the hypothesis `2 ≤ 3` holds
and `jth_unit_vector(-1, 3)` returns `(0, 1, 0)` without raising. -/
theorem c10_jth_unit_vector_neg_index_witness :
    jth_unit_vector (ZMod 2) (-1) 3 =
      .ok ((List.replicate 3 (0 : ZMod 2)).set 1 1) :=
  (c10_jth_unit_vector_neg_index 3 (by decide)).1

/-- Twice the sum of `Icc 1 m` is `m * (m + 1)` (Gauss). -/
theorem sum_Icc_one_mul_two (m : Nat) : (Finset.Icc 1 m).sum id * 2 = m * (m + 1) := by
  induction m with
  | zero => decide
  | succ m ih =>
    rw [Finset.sum_Icc_succ_top (by omega)]
    have hexp : (m + 1) * (m + 1 + 1) = m * (m + 1) + 2 * (m + 1) := by ring
    simp only [id] at ih ⊢
    omega

/-- The sum of a nonempty set of positive naturals equals the triangular
number of its maximum exactly when the set is the interval `{1, ..., max}`. -/
theorem sum_eq_triangular_iff (S : Finset Nat) (h1 : S.Nonempty)
    (hpos : ∀ i ∈ S, 1 ≤ i) :
    S.sum id = S.max' h1 * (S.max' h1 + 1) / 2 ↔ S = Finset.Icc 1 (S.max' h1) := by
  constructor
  · intro hsum
    set M := S.max' h1 with hM
    have hsub : S ⊆ Finset.Icc 1 M := by
      intro i hi
      rw [Finset.mem_Icc]
      exact ⟨hpos i hi, S.le_max' i hi⟩
    by_contra hne
    obtain ⟨x, hxI, hxS⟩ := Finset.exists_of_ssubset (hsub.ssubset_of_ne hne)
    have hlt : S.sum id < (Finset.Icc 1 M).sum id := by
      refine Finset.sum_lt_sum_of_subset hsub hxI hxS ?_ ?_
      · have := (Finset.mem_Icc.mp hxI).1
        simpa [id] using this
      · intro j _ _; exact Nat.zero_le _
    have htri := sum_Icc_one_mul_two M
    omega
  · intro hS
    have hsum : S.sum id = (Finset.Icc 1 (S.max' h1)).sum id :=
      Finset.sum_congr hS (fun _ _ => rfl)
    have htri := sum_Icc_one_mul_two (S.max' h1)
    omega

/-- C6: the closure/span branch of the admissibility test accepts a
list-shaped label only when the committed-candidate list `ca` is non-empty
and the levels in `s_n` form an unbroken prefix `{1, ..., m}`; the code's
guard `sum(s_n) == max(s_n) * (max(s_n) + 1) // 2` holds exactly when `s_n`
is such an interval. -/
theorem c6_span_guard_iff {α : Type} (ca : List α) (s_n : Finset Nat)
    (hpos : ∀ i ∈ s_n, 1 ≤ i) :
    spanGuard ca s_n = some true ↔
      (ca ≠ [] ∧ ∃ m, 1 ≤ m ∧ s_n = Finset.Icc 1 m) := by
  unfold spanGuard
  by_cases hca : ca.isEmpty
  · rw [if_pos hca]
    simp [List.isEmpty_iff.mp hca]
  · rw [if_neg hca]
    have hcane : ca ≠ [] := by
      intro h; rw [h] at hca; exact hca rfl
    by_cases hne : s_n.Nonempty
    · rw [dif_pos hne]
      simp only [Option.some.injEq, decide_eq_true_eq]
      rw [sum_eq_triangular_iff s_n hne hpos]
      constructor
      · intro hS
        refine ⟨hcane, s_n.max' hne, ?_, hS⟩
        obtain ⟨i, hi⟩ := hne
        exact le_trans (hpos i hi) (s_n.le_max' i hi)
      · rintro ⟨-, m, hm, hS⟩
        have hmax : s_n.max' hne = m := by
          apply le_antisymm
          · apply Finset.max'_le
            intro i hi
            rw [hS] at hi
            exact (Finset.mem_Icc.mp hi).2
          · apply Finset.le_max'
            rw [hS, Finset.mem_Icc]
            exact ⟨hm, le_refl m⟩
        rw [hmax, hS]
    · rw [dif_neg hne]
      constructor
      · intro h; exact Option.noConfusion h
      · rintro ⟨-, m, hm, hS⟩
        exfalso
        exact hne ⟨1, by rw [hS, Finset.mem_Icc]; exact ⟨le_refl 1, hm⟩⟩

/-- Witness for C6: with the non-empty committed list `[0]` and
`s_n = {1, 2}` the positivity hypothesis holds and the guard accepts,
exhibiting the unbroken prefix `{1, 2} = Icc 1 2`. -/
theorem c6_span_guard_iff_witness :
    [(0 : Nat)] ≠ [] ∧ ∃ m, 1 ≤ m ∧ ({1, 2} : Finset Nat) = Finset.Icc 1 m :=
  (c6_span_guard_iff [(0 : Nat)] {1, 2} (by decide)).mp (by decide)

end LinearConstruction
